import Mathlib

/-!
Verification of the shell-task scheduling core against its specification.

The Go source is shallowly embedded: pure fragments become Lean functions,
the stateful task lifecycle becomes an explicit-state interpreter, machine
integers become Nat/Int (Go's `time.Duration` is int64 nanoseconds, modelled
as Int; Go's `/` on int64 truncates toward zero, modelled by `Int.tdiv`).
Go maps keyed by strings are modelled as association lists updated in place.
A Go `panic` is modelled by an `Option`/flag result.

Sections:
  1. association-list primitives shared by several components
  2. `TaskContext` (scheduler/context.go)
  3. retry strategies (scheduler/retry.go)
  4. dependency bookkeeping (scheduler/task.go, DependsOn family)
  5. worker pool submission (scheduler/worker_pool.go)
  6. the task state machine interpreter (scheduler/task.go)
  7. the priority queue (scheduler/priority_queue.go + container/heap)
followed by the claim theorems.
-/

/-! ## 1. Association-list primitives

Go `map[string]V` assignment `m[k] = v` and lookup `m[k]`, modelled on
association lists so that insertion order is explicit and everything
computes. -/

/-- Lookup in an association list; models Go map read `v, ok := m[k]`. -/
def assocGet {V : Type} (m : List (String × V)) (k : String) : Option V :=
  match m with
  | [] => none
  | (k', v) :: rest => if k' = k then some v else assocGet rest k

/-- Insert/overwrite in an association list; models Go map write `m[k] = v`. -/
def assocSet {V : Type} (m : List (String × V)) (k : String) (v : V) : List (String × V) :=
  match m with
  | [] => [(k, v)]
  | (k', v') :: rest => if k' = k then (k, v) :: rest else (k', v') :: assocSet rest k v

/-- All values of an association list satisfy a predicate; models ranging
over a Go map's values. -/
def assocAll {V : Type} (m : List (String × V)) (p : V → Bool) : Bool :=
  m.all (fun kv => p kv.2)

/-! ## 2. TaskContext (scheduler/context.go)

`TaskContext` is a keyed map with an optional parent pointer.  Values of Go
type `interface` are opaque to the scheduler; they are modelled as `Nat`.
`root` is a context with `parent == nil`, `child` one with a parent set via
`WithParent`. -/

/-- Shallow embedding of `scheduler.TaskContext`: local values plus an
optional parent chain. -/
inductive TaskContext where
  | root (values : List (String × Nat))
  | child (values : List (String × Nat)) (parent : TaskContext)
deriving DecidableEq, Repr

/-- Local value map of a context (the Go `values` field). -/
def TaskContext.values : TaskContext → List (String × Nat)
  | .root vs => vs
  | .child vs _ => vs

/-- Parent pointer of a context (the Go `parent` field, `none` for nil). -/
def TaskContext.parentCtx : TaskContext → Option TaskContext
  | .root _ => none
  | .child _ p => some p

/-- `TaskContext.Get`: look up locally, then fall through to the parent. -/
def TaskContext.get : TaskContext → String → Option Nat
  | .root vs, k => assocGet vs k
  | .child vs p, k =>
    match assocGet vs k with
    | some v => some v
    | none => p.get k

/-- `TaskContext.Set`: write into the local map only. -/
def TaskContext.set : TaskContext → String → Nat → TaskContext
  | .root vs, k, v => .root (assocSet vs k v)
  | .child vs p, k, v => .child (assocSet vs k v) p

/-! ## 3. Retry strategies (scheduler/retry.go)

Errors are opaque to the retry machinery; they are modelled as `Nat`.
`math.Pow(factor, attempt)` is a float computation whose result Go
truncates to `time.Duration`; the truncated multiplier is abstracted as a
function argument `powTrunc` so the int64 arithmetic around it stays exact. -/

/-- Result of a Go call that may panic. -/
inductive GoResult (α : Type) where
  | ok (a : α)
  | panicked
deriving DecidableEq, Repr

/-- Shallow embedding of `scheduler.ExponentialBackoffRetryStrategy` (the
float `factor` field is abstracted away, see `nextRetryDelay`). -/
structure ExponentialBackoffRetryStrategy where
  initialDelay : Int
  maxDelay : Int
  maxRetries : Nat
  jitter : Bool
deriving DecidableEq, Repr

/-- `NewExponentialBackoffRetryStrategy`: jitter defaults to on. -/
def NewExponentialBackoffRetryStrategy (initialDelay maxDelay : Int) (maxRetries : Nat) :
    ExponentialBackoffRetryStrategy :=
  { initialDelay := initialDelay, maxDelay := maxDelay, maxRetries := maxRetries,
    jitter := true }

/-- `ExponentialBackoffRetryStrategy.NextRetryDelay`.  `powTrunc attempt`
stands for `time.Duration(math.Pow(s.factor, float64(attempt)))`;
`jitterDraw n` stands for the value drawn by `rand.Int63n(n)` when `n > 0`.
`rand.Int63n` panics when its bound is not positive, which happens exactly
when `int64(delay)/4 <= 0` under Go's truncating division. -/
def ExponentialBackoffRetryStrategy.nextRetryDelay
    (s : ExponentialBackoffRetryStrategy) (powTrunc : Nat → Int)
    (jitterDraw : Int → Int) (attempt : Nat) : GoResult Int :=
  if s.maxRetries ≤ attempt then .ok 0
  else
    let delay := s.initialDelay * powTrunc attempt
    if s.jitter then
      if Int.tdiv delay 4 ≤ 0 then .panicked
      else
        let delay2 := delay + jitterDraw (Int.tdiv delay 4)
        .ok (if s.maxDelay < delay2 then s.maxDelay else delay2)
    else .ok (if s.maxDelay < delay then s.maxDelay else delay)

/-! ## 4. Dependency bookkeeping (scheduler/task.go)

`DependsOn` keeps a slice of predecessor pointers (pointer identity is
modelled by a numeric id) and a satisfaction map keyed by the predecessor
name.  `updateDependencyStatus` flips a map entry and reports whether the
all-satisfied callback fires. -/

/-- Dependency-related fields of a `Task`: the predecessor list (by
pointer identity) and the name-keyed satisfaction map. -/
structure DepState where
  dependencies : List Nat
  dependenciesMap : List (String × Bool)
deriving DecidableEq, Repr

/-- `Task.DependsOn`: append predecessors not already present (by pointer
equality) and record `map[name] = false` for each appended one.  A
predecessor is a pair of pointer id and name. -/
def DepState.dependsOn (s : DepState) (tasks : List (Nat × String)) : DepState :=
  tasks.foldl
    (fun s t =>
      if t.1 ∈ s.dependencies then s
      else { dependencies := s.dependencies ++ [t.1],
             dependenciesMap := assocSet s.dependenciesMap t.2 false })
    s

/-- `Task.areDependenciesMetLocked`: vacuously true without dependencies,
otherwise every satisfaction-map entry must be true. -/
def DepState.areDependenciesMet (s : DepState) : Bool :=
  if s.dependencies.isEmpty then true
  else assocAll s.dependenciesMap (fun b => b)

/-- `Task.updateDependencyStatus`: update the named entry when present,
then report whether all entries are satisfied (which fires the
`onDependenciesMet` callback). -/
def DepState.updateDependencyStatus (s : DepState) (taskName : String) (status : Bool) :
    DepState × Bool :=
  let m :=
    if (assocGet s.dependenciesMap taskName).isSome then
      assocSet s.dependenciesMap taskName status
    else s.dependenciesMap
  let s' : DepState := { s with dependenciesMap := m }
  (s', assocAll m (fun b => b))

/-! ## 5. Priority queue (scheduler/priority_queue.go with container/heap)

The queue is a slice of items `(task, priority, index)` organised as a
binary max-heap: `Less(i, j)` is `items[i].priority > items[j].priority`.
An item is modelled as a pair of task pointer id and the priority read at
enqueue time; the `index` field only mirrors the slice position and is
dropped.  `Enqueue`/`Dequeue` call `heap.Push`/`heap.Pop` of Go's
`container/heap`, whose sift-up/sift-down loops are transcribed below
(`up` and `down` in the Go runtime library source). -/

/-- Heap item: task pointer id paired with the priority read at enqueue
time (`TaskItem` without the redundant `index` field). -/
abbrev QItem := Nat × Int

/-- Priority stored at position `k` of the heap slice. -/
def priAt (l : List QItem) (k : Nat) : Int :=
  (l.getD k (0, 0)).2

/-- Parent position of heap slot `j` (Go: `i := (j - 1) / 2`). -/
def parentIdx (j : Nat) : Nat :=
  (j - 1) / 2

/-- `Swap(a, b)` on the heap slice. -/
def swapQ (l : List QItem) (a b : Nat) : List QItem :=
  (l.set a (l.getD b (0, 0))).set b (l.getD a (0, 0))

/-- Sift-up loop of `container/heap` (`up(h, j)`): while the item at `j`
has higher priority than its parent, swap them. -/
def siftUp (l : List QItem) (j : Nat) : List QItem :=
  if h : j = 0 then l
  else if priAt l (parentIdx j) < priAt l j then
    siftUp (swapQ l (parentIdx j) j) (parentIdx j)
  else l
termination_by j
decreasing_by
  simp only [parentIdx]
  have := Nat.div_le_self (j - 1) 2
  omega

/-- Index of the higher-priority child of `i` among indices below `n`
(the `j` computed inside `down`); only meaningful when `2*i+1 < n`. -/
def maxChildIdx (l : List QItem) (i n : Nat) : Nat :=
  if 2*i + 2 < n ∧ priAt l (2*i + 1) < priAt l (2*i + 2) then 2*i + 2 else 2*i + 1

/-- Sift-down loop of `container/heap` (`down(h, i, n)`): while some child
below `n` beats the item at the hole, swap the hole with its best child. -/
def siftDown (l : List QItem) (i n : Nat) : List QItem :=
  if h : 2*i + 1 < n then
    let j := maxChildIdx l i n
    if priAt l i < priAt l j then siftDown (swapQ l i j) j n else l
  else l
termination_by n - i
decreasing_by
  simp only [maxChildIdx]
  split <;> omega

/-- `PriorityQueue.Enqueue` = `heap.Push`: append the new item (its
priority read now) and sift it up. -/
def pqEnqueue (l : List QItem) (x : QItem) : List QItem :=
  siftUp (l ++ [x]) l.length

/-- `PriorityQueue.Dequeue` = nil on empty, else `heap.Pop`: swap the root
with the last slot, sift the new root down over the first `n` slots, then
remove and return the last slot (the old root). -/
def pqDequeue (l : List QItem) : Option (QItem × List QItem) :=
  if l.length = 0 then none
  else
    let n := l.length - 1
    let l2 := siftDown (swapQ l 0 n) 0 n
    some (l2.getD n (0, 0), l2.take n)

/-- Heap states reachable through the queue API from `NewPriorityQueue`. -/
inductive PQReachable : List QItem → Prop where
  | empty : PQReachable []
  | enq {l x} : PQReachable l → PQReachable (pqEnqueue l x)
  | deq {l x l'} : PQReachable l → pqDequeue l = some (x, l') → PQReachable l'

/-- Max-heap slice property maintained by `container/heap` over the first
`n` slots: no child has higher priority than its parent. -/
def IsHeapUpTo (l : List QItem) (n : Nat) : Prop :=
  ∀ j, 0 < j → j < n → priAt l j ≤ priAt l (parentIdx j)

/-- Max-heap property of the whole slice. -/
def IsHeap (l : List QItem) : Prop :=
  IsHeapUpTo l l.length

/-! ## 6. Worker pool submission (scheduler/worker_pool.go)

Only the state touched by `Submit`, `Stop` and the scheduler loop is
modelled: the lifecycle flag, the pool's cancellation token, the priority
queue, and the name-keyed task-info map. -/

/-- `scheduler.TaskStatus`. -/
inductive TaskStatus where
  | pending | runningS | completed | failed | cancelled
deriving DecidableEq, Repr

/-- `scheduler.TaskInfo` (the task reference is its pointer id, times are
abstract ticks with 0 the Go zero value). -/
structure TaskInfo where
  taskId : Nat
  status : TaskStatus
  workerId : Nat
  startTime : Nat
  endTime : Nat
  err : Option Nat
deriving DecidableEq, Repr

/-- State of `scheduler.WorkerPool` relevant to submission and shutdown. -/
structure WorkerPool where
  running : Bool
  ctxCancelled : Bool
  taskQueue : List QItem
  tasks : List (String × TaskInfo)
deriving DecidableEq, Repr

/-- `WorkerPool.Submit`: a stopped pool only logs a warning; a running
pool records a Pending task-info entry under the task's name and enqueues
the task into the priority queue. -/
def WorkerPool.submit (wp : WorkerPool) (id : Nat) (name : String) (priority : Int) :
    WorkerPool :=
  if !wp.running then wp
  else
    { wp with
      tasks := assocSet wp.tasks name
        { taskId := id, status := .pending, workerId := 0, startTime := 0,
          endTime := 0, err := none },
      taskQueue := pqEnqueue wp.taskQueue (id, priority) }

/-- `WorkerPool.Stop`: idempotent; marks the pool stopped and fires its
cancellation token (channel close and joins carry no observable state). -/
def WorkerPool.stop (wp : WorkerPool) : WorkerPool :=
  if !wp.running then wp
  else { wp with running := false, ctxCancelled := true }

/-- Queue contents in dequeue order, bounded by a fuel argument. -/
def drainQueue : Nat → List QItem → List QItem
  | 0, _ => []
  | fuel + 1, l =>
    match pqDequeue l with
    | none => []
    | some (x, l') => x :: drainQueue fuel l'

/-- Tasks the scheduler goroutine ever hands to workers: none once the
pool token is cancelled (the loop exits on `ctx.Done()`), otherwise the
queue drained in dequeue order. -/
def schedulerDispatch (wp : WorkerPool) : List QItem :=
  if wp.ctxCancelled then [] else drainQueue wp.taskQueue.length wp.taskQueue

/-! ## 7. Task state machine (scheduler/task.go)

The task lifecycle is executed by a single goroutine (synchronous mode, or
the one goroutine spawned by `Run` in asynchronous mode), so it is embedded
as a sequential interpreter over the observable task state.  The user job
is the environment: for every (iteration, attempt) pair it chooses whether
to call the task's own `Stop`, which context keys to set through
`SetContextValue`, and whether to return nil, an error, or to panic.
Waits (`select` on `ctx.Done()` versus a timer) resolve by the current
state of the task's cancellation token, which only the task itself can
fire in a sequential run.  The per-attempt timeout only rewrites the
attempt's error into a typed timeout error, which the environment's free
choice of error values already covers, so it is not modelled separately.
The `callbacks` field is a ghost trace of every `(old, new)` pair
delivered to the `onStateChange` callback; `jobCalls` and `iters` are
ghost counters of user-job invocations and started iterations. -/

/-- `scheduler.TaskState`. -/
inductive TaskState where
  | idle | runningT | paused | completed | failed | cancelled
deriving DecidableEq, Repr

/-- Observable state of a `Task` (plus ghost trace fields). -/
structure Obs where
  state : TaskState
  ctxCancelled : Bool
  lastError : Option Nat
  lastRunTime : Nat
  runCount : Nat
  taskCtx : TaskContext
  callbacks : List (TaskState × TaskState)
  jobCalls : Nat
  iters : Nat
deriving DecidableEq, Repr

/-- `Task.setState`: record the old state, write the new one, deliver the
pair to the state-change callback (appended to the ghost trace). -/
def setState (o : Obs) (s : TaskState) : Obs :=
  { o with state := s, callbacks := o.callbacks ++ [(o.state, s)] }

/-- `Task.Stop`: return immediately in Cancelled or Completed; otherwise,
if the token has not fired yet, transition to Cancelled and fire it. -/
def stopTask (o : Obs) : Obs :=
  if o.state = .cancelled ∨ o.state = .completed then o
  else if o.ctxCancelled then o
  else
    let o' := setState o .cancelled
    { o' with ctxCancelled := true }

/-- `Task.Reset`: stop a running task, then reset state, last error, last
run time and run count, and replace the cancellation token with a fresh
one.  The state write is direct (not via `setState`) and the task context
is left untouched. -/
def resetTask (o : Obs) : Obs :=
  let o := if o.state = .runningT then stopTask o else o
  { o with state := .idle, lastError := none, lastRunTime := 0,
           ctxCancelled := false, runCount := 0 }

/-- `Task.GetContextValue` (via the lazily created context). -/
def getContextValue (o : Obs) (k : String) : Option Nat :=
  o.taskCtx.get k

/-- What the user job does on one invocation: optionally call the task's
own `Stop`, set context keys, and produce a result. -/
inductive JobRes where
  | ok
  | fail (e : Nat)
  | panics (p : Nat)
deriving DecidableEq, Repr

/-- One job invocation as chosen by the environment. -/
structure JobAct where
  callsStop : Bool
  sets : List (String × Nat)
  res : JobRes
deriving DecidableEq, Repr

/-- Environment: the job's behaviour for every (iteration, attempt). -/
abbrev JobEnv := Nat → Nat → JobAct

/-- Retry configuration of a task: plain `retryTimes`, or a strategy
giving `MaxRetries()`, `ShouldRetry(err)` and whether
`NextRetryDelay(attempt, err)` is zero. -/
inductive RetryConf where
  | simple (retryTimes : Nat)
  | strategy (maxRetries : Nat) (shouldRetryFn : Nat → Bool) (delayZero : Nat → Nat → Bool)

/-- `Task.getMaxRetries`: the strategy's `MaxRetries()` when a strategy is
set, else `retryTimes`. -/
def RetryConf.maxRetries : RetryConf → Nat
  | .simple n => n
  | .strategy m _ _ => m

/-- Static configuration of a task (fields read by the run loop). -/
structure TaskCfg where
  maxRuns : Nat
  intervalPos : Bool
  cancelOnErr : Bool
  retry : RetryConf

/-- `Task.shouldRetry(err, attempt, maxRetries)`: never on the final
attempt; with a strategy, stop when `ShouldRetry` refuses, when the next
delay is zero, or when the token fires during the delay sleep; without a
strategy, always retry. -/
def taskShouldRetry (cfg : TaskCfg) (cancelled : Bool) (e : Nat) (attempt maxRetries : Nat) :
    Bool :=
  if maxRetries ≤ attempt then false
  else
    match cfg.retry with
    | .simple _ => true
    | .strategy _ sr dz =>
      if !sr e then false
      else if dz attempt e then false
      else if cancelled then false
      else true

/-- Effect of one job invocation on the observable state: the context keys
it sets through `SetContextValue`, then its call to `Stop` if any. -/
def applyJobAct (o : Obs) (a : JobAct) : Obs :=
  let o := { o with
    taskCtx := a.sets.foldl (fun c kv => c.set kv.1 kv.2) o.taskCtx }
  if a.callsStop then stopTask o else o

/-- Result of the retry loop body: a final attempt error, or a panic that
unwinds to `handlePanic`. -/
inductive RetryOut where
  | done (res : Option Nat)
  | panicked (p : Nat)
deriving DecidableEq, Repr

/-- Attempt loop of `Task.executeJobWithRetry`: run the job, break on
success, consult `shouldRetry` on failure.  `fuel` is the number of
attempts still allowed; it starts at `maxRetries + 1` and dominates the
`attempt <= maxRetries` loop bound, so the fuel-exhausted branch is
unreachable. -/
def retryAttempts (cfg : TaskCfg) (env : JobEnv) (iter maxRetries : Nat) :
    Nat → Nat → Obs → Obs × RetryOut
  | _, 0, o => (o, .done none)
  | attempt, fuel + 1, o =>
    let a := env iter attempt
    let o := applyJobAct { o with jobCalls := o.jobCalls + 1 } a
    match a.res with
    | .panics p => (o, .panicked p)
    | .ok => (o, .done none)
    | .fail e =>
      if taskShouldRetry cfg o.ctxCancelled e attempt maxRetries then
        retryAttempts cfg env iter maxRetries (attempt + 1) fuel o
      else (o, .done (some e))

/-- `Task.executeJobWithRetry`: attempts 0 through `maxRetries`. -/
def execJobWithRetry (cfg : TaskCfg) (env : JobEnv) (iter : Nat) (o : Obs) :
    Obs × RetryOut :=
  retryAttempts cfg env iter cfg.retry.maxRetries 0 (cfg.retry.maxRetries + 1) o

/-- `Task.handleJobResult`: on error record it and, under
`cancelOnFailure`, transition to Failed, clean up and fire the token;
returns whether the iteration continues. -/
def handleJobResult (cfg : TaskCfg) (o : Obs) : Option Nat → Obs × Bool
  | none => (o, true)
  | some e =>
    let o := { o with lastError := some e }
    if cfg.cancelOnErr then
      let o := setState o .failed
      ({ o with ctxCancelled := true }, false)
    else (o, true)

/-- `Task.checkMaxRuns`: increment the run count; at `maxRuns > 0` runs,
transition to Completed, clean up and fire the token. -/
def checkMaxRuns (cfg : TaskCfg) (o : Obs) : Obs × Bool :=
  let o := { o with runCount := o.runCount + 1 }
  if 0 < cfg.maxRuns ∧ cfg.maxRuns ≤ o.runCount then
    let o := setState o .completed
    ({ o with ctxCancelled := true }, false)
  else (o, true)

/-- `Task.waitForNextRun`: the interval sleep observes the token; a fired
token means Cancelled, otherwise the next iteration starts. -/
def waitForNextRun (o : Obs) : Obs × Bool :=
  if o.ctxCancelled then (setState o .cancelled, false) else (o, true)

/-- Outcome of `Task.executeOneIteration`. -/
inductive IterOut where
  | next
  | stop
  | panicked (p : Nat)
deriving DecidableEq, Repr

/-- `Task.executeOneIteration`: pre-hook, record the run time, run the
attempt cycle, handle the result, post-hook, check `maxRuns`, then either
complete (non-repeating task) or wait out the interval. -/
def oneIteration (cfg : TaskCfg) (env : JobEnv) (o : Obs) : Obs × IterOut :=
  let it := o.iters
  let o := { o with iters := it + 1, lastRunTime := it + 1 }
  match execJobWithRetry cfg env it o with
  | (o, .panicked p) => (o, .panicked p)
  | (o, .done res) =>
    match handleJobResult cfg o res with
    | (o, false) => (o, .stop)
    | (o, true) =>
      match checkMaxRuns cfg o with
      | (o, false) => (o, .stop)
      | (o, true) =>
        if !cfg.intervalPos then (setState o .completed, .stop)
        else
          match waitForNextRun o with
          | (o, false) => (o, .stop)
          | (o, true) => (o, .next)

/-- `Task.executeMainLoop` with fuel: each round first observes the
cancellation token (`handleCancellation`), then runs one iteration.  The
second component reports a panic unwinding out of the loop.  Exhausted
fuel truncates the run after finitely many iterations. -/
def mainLoop (cfg : TaskCfg) (env : JobEnv) : Nat → Obs → Obs × Option Nat
  | 0, o => (o, none)
  | fuel + 1, o =>
    if o.ctxCancelled then (setState o .cancelled, none)
    else
      match oneIteration cfg env o with
      | (o, .next) => mainLoop cfg env fuel o
      | (o, .stop) => (o, none)
      | (o, .panicked p) => (o, some p)

/-- `Task.handlePanic`: recovery hook, transition to Failed, record the
synthesized panic error (the token is not fired here). -/
def handlePanic (o : Obs) (p : Nat) : Obs :=
  let o := setState o .failed
  { o with lastError := some p }

/-- `Task.Run` from a given observable state (no dependencies installed):
a Running task is left alone; otherwise transition to Running and execute
the run body, catching panics at the top. -/
def runTaskFrom (cfg : TaskCfg) (env : JobEnv) (fuel : Nat) (o : Obs) : Obs :=
  if o.state = .runningT then o
  else
    match mainLoop cfg env fuel (setState o .runningT) with
    | (o, none) => o
    | (o, some p) => handlePanic o p

/-- Observable state of a freshly constructed task (`NewTask` with any
option list that does not preload context values). -/
def initObs : Obs :=
  { state := .idle, ctxCancelled := false, lastError := none, lastRunTime := 0,
    runCount := 0, taskCtx := .root [], callbacks := [], jobCalls := 0, iters := 0 }

/-- A full run of a freshly constructed task. -/
def runTask (cfg : TaskCfg) (env : JobEnv) (fuel : Nat) : Obs :=
  runTaskFrom cfg env fuel initObs

/-! ## 8. Derived specification predicates -/

/-- The callback trace is a chain: each delivered pair's old state is the
state established by the previous pair (starting from `s`). -/
def Chained (s : TaskState) : List (TaskState × TaskState) → Prop
  | [] => True
  | p :: rest => p.1 = s ∧ Chained p.2 rest

/-- State established after a callback trace starting from `s`. -/
def endState (s : TaskState) : List (TaskState × TaskState) → TaskState
  | [] => s
  | p :: rest => endState p.2 rest

/-- Callback-trace invariant of a task run started from a fresh task:
the trace is chained from Idle and ends at the current state. -/
def CbInv (o : Obs) : Prop :=
  Chained .idle o.callbacks ∧ endState .idle o.callbacks = o.state

/-! ## Theorems -/

/-! ### C7 — context parent chaining -/

/-- Claim C7: for a context `C` with parent `P`, `C.Get(k)` returns the
local value when present and otherwise `P.Get(k)`; and `C.Set(k, v)`
rewrites only `C`'s local map, leaving the parent pointer (and hence every
`P.Get`) exactly as before. -/
theorem C7_context_parent_chain (vs : List (String × Nat)) (p : TaskContext)
    (k : String) (v : Nat) :
    ((assocGet vs k).isSome → (TaskContext.child vs p).get k = assocGet vs k) ∧
    (assocGet vs k = none → (TaskContext.child vs p).get k = p.get k) ∧
    (TaskContext.child vs p).set k v = TaskContext.child (assocSet vs k v) p ∧
    ((TaskContext.child vs p).set k v).parentCtx = some p := by
  refine ⟨?_, ?_, rfl, rfl⟩
  · intro h
    unfold TaskContext.get
    cases hg : assocGet vs k with
    | none => rw [hg] at h; simp at h
    | some w => simp
  · intro h
    simp only [TaskContext.get, h]

/-- Witness for C7 at a concrete child/parent pair. -/
theorem C7_witness :
    (TaskContext.child [("a", 1)] (TaskContext.root [("b", 2)])).get "b" =
      (TaskContext.root [("b", 2)]).get "b" :=
  (C7_context_parent_chain [("a", 1)] (TaskContext.root [("b", 2)]) "b" 0).2.1 (by decide)

/-! ### C9 — exponential backoff jitter panic -/

/-- Claim C9: with jitter enabled (the constructor default), whenever the
attempt index is below `maxRetries` and the truncated base delay
`initialDelay * factor^attempt` is below 4ns, `NextRetryDelay` reaches
`rand.Int63n` with a non-positive bound and panics. -/
theorem C9_backoff_jitter_panics (initialDelay maxDelay : Int) (maxRetries : Nat)
    (powTrunc : Nat → Int) (jitterDraw : Int → Int) (attempt : Nat)
    (hlt : attempt < maxRetries)
    (hdelay : initialDelay * powTrunc attempt < 4) :
    (NewExponentialBackoffRetryStrategy initialDelay maxDelay maxRetries).nextRetryDelay
      powTrunc jitterDraw attempt = .panicked := by
  have hdiv : Int.tdiv (initialDelay * powTrunc attempt) 4 ≤ 0 := by
    set d := initialDelay * powTrunc attempt with hd
    rcases le_or_lt 0 d with h0 | h0
    · have : Int.tdiv d 4 = 0 := Int.tdiv_eq_zero_of_lt h0 hdelay
      omega
    · have h1 : Int.tdiv d 4 = -(Int.tdiv (-d) 4) := by
        rw [← Int.neg_tdiv, neg_neg]
      have h2 : 0 ≤ Int.tdiv (-d) 4 := Int.tdiv_nonneg (by omega) (by omega)
      omega
  unfold NewExponentialBackoffRetryStrategy ExponentialBackoffRetryStrategy.nextRetryDelay
  simp only []
  rw [if_neg (by omega)]
  simp only [if_true]
  rw [if_pos hdiv]

/-- Witness for C9: `initialDelay = 0` with the default jitter panics on
the first retry delay computation. -/
theorem C9_witness :
    (NewExponentialBackoffRetryStrategy 0 1000 3).nextRetryDelay
      (fun _ => 1) (fun _ => 0) 0 = .panicked :=
  C9_backoff_jitter_panics 0 1000 3 (fun _ => 1) (fun _ => 0) 0 (by decide) (by decide)

/-! ### C10 — same-named dependencies share one satisfaction entry -/

/-- Claim C10: installing two pointer-distinct predecessors with the same
name keeps both in the dependency list but collapses the satisfaction map
to a single entry for that name, so marking that one name satisfied fires
the all-satisfied callback and makes `AreDependenciesMet` true. -/
theorem C10_duplicate_name_deps (i1 i2 : Nat) (nm : String) (h : i1 ≠ i2) :
    (DepState.dependsOn ⟨[], []⟩ [(i1, nm), (i2, nm)]).dependencies = [i1, i2] ∧
    (DepState.dependsOn ⟨[], []⟩ [(i1, nm), (i2, nm)]).dependenciesMap = [(nm, false)] ∧
    ((DepState.dependsOn ⟨[], []⟩ [(i1, nm), (i2, nm)]).updateDependencyStatus nm true).2
      = true ∧
    ((DepState.dependsOn ⟨[], []⟩ [(i1, nm), (i2, nm)]).updateDependencyStatus
      nm true).1.areDependenciesMet = true := by
  have hs : DepState.dependsOn ⟨[], []⟩ [(i1, nm), (i2, nm)]
      = ⟨[i1, i2], [(nm, false)]⟩ := by
    unfold DepState.dependsOn
    simp [List.foldl, assocSet, Ne.symm h]
  rw [hs]
  refine ⟨rfl, rfl, ?_, ?_⟩ <;>
    simp [DepState.updateDependencyStatus, DepState.areDependenciesMet,
      assocGet, assocSet, assocAll]

/-- Witness for C10 with predecessors 0 and 1 both named "a". -/
theorem C10_witness :
    ((DepState.dependsOn ⟨[], []⟩ [(0, "a"), (1, "a")]).updateDependencyStatus "a" true).2
      = true :=
  (C10_duplicate_name_deps 0 1 "a" (by decide)).2.2.1

/-! ### C8 — submitting to a stopped pool -/

/-- Claim C8: after `Stop()` on a running pool the pool is stopped and its
token fired; `Submit` then leaves the entire pool state (priority queue
and task-info map included) unchanged, and the scheduler hands no task to
any worker, so the submitted task is never executed. -/
theorem C8_submit_after_stop (wp : WorkerPool) (id : Nat) (name : String) (pr : Int)
    (h : wp.running = true) :
    wp.stop.running = false ∧
    wp.stop.ctxCancelled = true ∧
    wp.stop.submit id name pr = wp.stop ∧
    schedulerDispatch wp.stop = [] := by
  have hs : wp.stop = { wp with running := false, ctxCancelled := true } := by
    unfold WorkerPool.stop
    rw [h]
    simp
  rw [hs]
  refine ⟨rfl, rfl, ?_, ?_⟩
  · unfold WorkerPool.submit
    simp
  · unfold schedulerDispatch
    simp

/-- Witness for C8 on a concrete running pool. -/
theorem C8_witness :
    (WorkerPool.stop ⟨true, false, [(4, 5)], []⟩).submit 9 "t" 10
      = WorkerPool.stop ⟨true, false, [(4, 5)], []⟩ :=
  (C8_submit_after_stop ⟨true, false, [(4, 5)], []⟩ 9 "t" 10 rfl).2.2.1

/-! ### C1 — Stop on terminal states -/

/-- Claim C1 (amended): `Stop()` is a no-op — state, last error,
cancellation token and callback trace all unchanged — on a Completed or
Cancelled task, and on a Failed task whose cancellation token has already
fired (the `cancelOnFailure` path).  A Failed task with an unfired token
(the panic-recovery path) is excluded: there `Stop()` does transition to
Cancelled. -/
theorem C1_stop_terminal_amended (o : Obs)
    (h : o.state = .completed ∨ o.state = .cancelled ∨
         (o.state = .failed ∧ o.ctxCancelled = true)) :
    stopTask o = o := by
  unfold stopTask
  rcases h with h | h | ⟨h1, h2⟩
  · rw [if_pos (Or.inr h)]
  · rw [if_pos (Or.inl h)]
  · rw [if_neg (by rw [h1]; simp), if_pos h2]

/-- Witness for C1 on a Completed task. -/
theorem C1_witness :
    stopTask { initObs with state := .completed } = { initObs with state := .completed } :=
  C1_stop_terminal_amended { initObs with state := .completed } (Or.inl rfl)

/-- Counterexample to C1 as stated: a task whose job panics reaches Failed
through `handlePanic` with its cancellation token still unfired, and
`Stop()` on it is not a no-op — it transitions the task to Cancelled,
fires the token, and delivers a (Failed, Cancelled) callback. -/
theorem C1_stop_after_panic_counterexample :
    (runTask ⟨0, false, false, .simple 0⟩ (fun _ _ => ⟨false, [], .panics 42⟩) 3).state
      = .failed ∧
    (runTask ⟨0, false, false, .simple 0⟩ (fun _ _ => ⟨false, [], .panics 42⟩) 3).ctxCancelled
      = false ∧
    (stopTask (runTask ⟨0, false, false, .simple 0⟩
        (fun _ _ => ⟨false, [], .panics 42⟩) 3)).state = .cancelled ∧
    (stopTask (runTask ⟨0, false, false, .simple 0⟩
        (fun _ _ => ⟨false, [], .panics 42⟩) 3)).callbacks
      = (runTask ⟨0, false, false, .simple 0⟩
          (fun _ _ => ⟨false, [], .panics 42⟩) 3).callbacks
        ++ [(.failed, .cancelled)] := by
  decide

/-! ### C5 — Reset versus a fresh task -/

/-- Claim C5 (amended): `Reset()` on a task in a terminal state restores
state (Idle), last error (none), last run time (zero), run count (0) and
an unfired fresh cancellation token, exactly as on a freshly constructed
task — but it leaves the task context untouched, so `GetContextValue` may
differ from a fresh task built from the same options. -/
theorem C5_reset_amended (o : Obs)
    (h : o.state = .completed ∨ o.state = .failed ∨ o.state = .cancelled) :
    (resetTask o).state = initObs.state ∧
    (resetTask o).lastError = initObs.lastError ∧
    (resetTask o).lastRunTime = initObs.lastRunTime ∧
    (resetTask o).runCount = initObs.runCount ∧
    (resetTask o).ctxCancelled = initObs.ctxCancelled ∧
    (resetTask o).taskCtx = o.taskCtx := by
  have hns : ¬ o.state = .runningT := by
    rcases h with h | h | h <;> rw [h] <;> simp
  unfold resetTask
  rw [if_neg hns]
  exact ⟨rfl, rfl, rfl, rfl, rfl, rfl⟩

/-- Witness for C5 on a concrete Completed task. -/
theorem C5_witness :
    (resetTask { initObs with state := .completed }).state = initObs.state :=
  (C5_reset_amended { initObs with state := .completed } (Or.inl rfl)).1

/-- Counterexample to C5 as stated: a task whose job stores a context
value and then completes (maxRuns = 1) reaches the terminal state
Completed; after `Reset()` the task still answers `GetContextValue "k"`
with the stored value, while a freshly constructed task answers none, so
the reset task is observably different from a fresh one. -/
theorem C5_reset_counterexample :
    (runTask ⟨1, false, false, .simple 0⟩ (fun _ _ => ⟨false, [("k", 7)], .ok⟩) 3).state
      = .completed ∧
    getContextValue
      (resetTask (runTask ⟨1, false, false, .simple 0⟩
        (fun _ _ => ⟨false, [("k", 7)], .ok⟩) 3)) "k" = some 7 ∧
    getContextValue initObs "k" = none := by
  decide

/-! ### C3 — state-change callback pairs -/

/-- Splitting a chained trace around an append. -/
theorem chained_append (s : TaskState) (l1 l2 : List (TaskState × TaskState)) :
    Chained s (l1 ++ l2) ↔ Chained s l1 ∧ Chained (endState s l1) l2 := by
  induction l1 generalizing s with
  | nil => simp [Chained, endState]
  | cons p rest ih => simp [Chained, endState, ih, and_assoc]

/-- The end of a trace split around an append. -/
theorem endState_append (s : TaskState) (l1 l2 : List (TaskState × TaskState)) :
    endState s (l1 ++ l2) = endState (endState s l1) l2 := by
  induction l1 generalizing s with
  | nil => rfl
  | cons p rest ih => simp [endState, ih]

/-- `setState` preserves the callback-trace invariant: the delivered pair
starts at the current state and the trace ends at the new state. -/
theorem cbInv_setState {o : Obs} (h : CbInv o) (s : TaskState) :
    CbInv (setState o s) := by
  obtain ⟨h1, h2⟩ := h
  constructor
  · show Chained .idle (o.callbacks ++ [(o.state, s)])
    rw [chained_append]
    exact ⟨h1, by simp [Chained, h2]⟩
  · show endState .idle (o.callbacks ++ [(o.state, s)]) = s
    rw [endState_append]
    rfl

/-- `Stop` preserves the callback-trace invariant. -/
theorem cbInv_stopTask {o : Obs} (h : CbInv o) : CbInv (stopTask o) := by
  unfold stopTask
  split
  · exact h
  · split
    · exact h
    · exact cbInv_setState h .cancelled

/-- A job invocation preserves the callback-trace invariant. -/
theorem cbInv_applyJobAct {o : Obs} (h : CbInv o) (a : JobAct) :
    CbInv (applyJobAct o a) := by
  unfold applyJobAct
  split
  · exact cbInv_stopTask h
  · exact h

/-- The attempt loop preserves the callback-trace invariant. -/
theorem cbInv_retryAttempts (cfg : TaskCfg) (env : JobEnv) (it mR : Nat) :
    ∀ fuel a (o : Obs), CbInv o → CbInv (retryAttempts cfg env it mR a fuel o).1 := by
  intro fuel
  induction fuel with
  | zero => intro a o h; exact h
  | succ n ih =>
    intro a o h
    simp only [retryAttempts]
    have hact : CbInv (applyJobAct { o with jobCalls := o.jobCalls + 1 } (env it a)) :=
      cbInv_applyJobAct (o := { o with jobCalls := o.jobCalls + 1 }) h (env it a)
    cases hres : (env it a).res with
    | panics p => simp only [hres]; exact hact
    | ok => simp only [hres]; exact hact
    | fail e =>
      simp only [hres]
      split
      · exact ih (a + 1) _ hact
      · exact hact

/-- `handleJobResult` preserves the callback-trace invariant. -/
theorem cbInv_handleJobResult (cfg : TaskCfg) {o : Obs} (h : CbInv o) (res : Option Nat) :
    CbInv (handleJobResult cfg o res).1 := by
  cases res with
  | none => exact h
  | some e =>
    unfold handleJobResult
    dsimp only
    split
    · exact cbInv_setState (o := { o with lastError := some e }) h .failed
    · exact h

/-- `checkMaxRuns` preserves the callback-trace invariant. -/
theorem cbInv_checkMaxRuns (cfg : TaskCfg) {o : Obs} (h : CbInv o) :
    CbInv (checkMaxRuns cfg o).1 := by
  unfold checkMaxRuns
  dsimp only
  split
  · exact cbInv_setState (o := { o with runCount := o.runCount + 1 }) h .completed
  · exact h

/-- `waitForNextRun` preserves the callback-trace invariant. -/
theorem cbInv_waitForNextRun {o : Obs} (h : CbInv o) :
    CbInv (waitForNextRun o).1 := by
  unfold waitForNextRun
  split
  · exact cbInv_setState h .cancelled
  · exact h

/-- The attempt cycle preserves the callback-trace invariant. -/
theorem cbInv_execJobWithRetry (cfg : TaskCfg) (env : JobEnv) (it : Nat) {o : Obs}
    (h : CbInv o) : CbInv (execJobWithRetry cfg env it o).1 :=
  cbInv_retryAttempts cfg env it cfg.retry.maxRetries (cfg.retry.maxRetries + 1) 0 o h

/-- One iteration preserves the callback-trace invariant. -/
theorem cbInv_oneIteration (cfg : TaskCfg) (env : JobEnv) {o : Obs} (h : CbInv o) :
    CbInv (oneIteration cfg env o).1 := by
  unfold oneIteration
  dsimp only
  rcases hr : execJobWithRetry cfg env o.iters
      { o with iters := o.iters + 1, lastRunTime := o.iters + 1 } with ⟨o1, out⟩
  have h2 : CbInv o1 := by
    have h0 := cbInv_execJobWithRetry cfg env o.iters
      (o := { o with iters := o.iters + 1, lastRunTime := o.iters + 1 }) h
    rw [hr] at h0
    exact h0
  cases out with
  | panicked p => exact h2
  | done res =>
    dsimp only
    rcases hh : handleJobResult cfg o1 res with ⟨o2, b2⟩
    have h3 : CbInv o2 := by
      have h0 := cbInv_handleJobResult cfg h2 res
      rw [hh] at h0
      exact h0
    cases b2 with
    | false => exact h3
    | true =>
      dsimp only
      rcases hc : checkMaxRuns cfg o2 with ⟨o3, b3⟩
      have h4 : CbInv o3 := by
        have h0 := cbInv_checkMaxRuns cfg h3
        rw [hc] at h0
        exact h0
      cases b3 with
      | false => exact h4
      | true =>
        dsimp only
        split
        · exact cbInv_setState h4 .completed
        · rcases hw : waitForNextRun o3 with ⟨o4, b4⟩
          have h5 : CbInv o4 := by
            have h0 := cbInv_waitForNextRun h4
            rw [hw] at h0
            exact h0
          cases b4 <;> exact h5

/-- The main loop preserves the callback-trace invariant. -/
theorem cbInv_mainLoop (cfg : TaskCfg) (env : JobEnv) :
    ∀ fuel (o : Obs), CbInv o → CbInv (mainLoop cfg env fuel o).1 := by
  intro fuel
  induction fuel with
  | zero => intro o h; exact h
  | succ n ih =>
    intro o h
    simp only [mainLoop]
    split
    · exact cbInv_setState h .cancelled
    · rcases hr : oneIteration cfg env o with ⟨o1, out⟩
      have h1 : CbInv o1 := by
        have := cbInv_oneIteration cfg env h
        rw [hr] at this
        exact this
      cases out with
      | next => simp only []; exact ih o1 h1
      | stop => exact h1
      | panicked p => exact h1

/-- Claim C3 (amended): for every run of a task the delivered callback
pairs form a chain — each pair's old state equals the previous pair's new
state, starting from Idle — but a pair with old equal to new can occur
(see the counterexample), so only the chain half of the claim holds. -/
theorem C3_callbacks_chained_amended (cfg : TaskCfg) (env : JobEnv) (fuel : Nat) :
    Chained .idle (runTask cfg env fuel).callbacks ∧
    endState .idle (runTask cfg env fuel).callbacks = (runTask cfg env fuel).state := by
  have hinit : CbInv initObs := ⟨trivial, rfl⟩
  have h : CbInv (runTask cfg env fuel) := by
    unfold runTask runTaskFrom
    split
    · exact hinit
    · rcases hm : mainLoop cfg env fuel (setState initObs .runningT) with ⟨o1, p?⟩
      have h1 : CbInv o1 := by
        have := cbInv_mainLoop cfg env fuel (setState initObs .runningT)
          (cbInv_setState hinit .runningT)
        rw [hm] at this
        exact this
      cases p? with
      | none => exact h1
      | some p =>
        simp only []
        have h2 : CbInv (setState o1 .failed) := cbInv_setState h1 .failed
        exact h2
  exact h

/-- Counterexample to C3 as stated: a synchronous task whose job calls the
task's own `Stop()` and then returns nil, with a positive repeat interval:
the interval wait observes the fired token and calls `setState(Cancelled)`
again, delivering a (Cancelled, Cancelled) callback whose old state equals
its new state. -/
theorem C3_counterexample :
    (runTask ⟨0, true, false, .simple 0⟩ (fun _ _ => ⟨true, [], .ok⟩) 3).callbacks
      = [(.idle, .runningT), (.runningT, .cancelled), (.cancelled, .cancelled)] ∧
    ¬ (∀ p ∈ (runTask ⟨0, true, false, .simple 0⟩
        (fun _ _ => ⟨true, [], .ok⟩) 3).callbacks, p.1 ≠ p.2) := by
  constructor
  · decide
  · intro hall
    have := hall (.cancelled, .cancelled) (by decide)
    exact this rfl

/-! ### C4 — retry decision within one iteration -/

/-- `Stop` does not touch the run counters. -/
theorem stopTask_counts (o : Obs) :
    (stopTask o).runCount = o.runCount ∧ (stopTask o).iters = o.iters ∧
    (stopTask o).jobCalls = o.jobCalls := by
  unfold stopTask
  split
  · exact ⟨rfl, rfl, rfl⟩
  · split
    · exact ⟨rfl, rfl, rfl⟩
    · exact ⟨rfl, rfl, rfl⟩

/-- A job invocation does not touch the run counters. -/
theorem applyJobAct_counts (o : Obs) (a : JobAct) :
    (applyJobAct o a).runCount = o.runCount ∧ (applyJobAct o a).iters = o.iters ∧
    (applyJobAct o a).jobCalls = o.jobCalls := by
  unfold applyJobAct
  dsimp only
  split
  · exact stopTask_counts _
  · exact ⟨rfl, rfl, rfl⟩

/-- The attempt loop performs at most `fuel` job invocations and does not
touch the iteration or run counters. -/
theorem retryAttempts_counts (cfg : TaskCfg) (env : JobEnv) (it mR : Nat) :
    ∀ fuel a (o : Obs),
      (retryAttempts cfg env it mR a fuel o).1.jobCalls ≤ o.jobCalls + fuel ∧
      (retryAttempts cfg env it mR a fuel o).1.runCount = o.runCount ∧
      (retryAttempts cfg env it mR a fuel o).1.iters = o.iters := by
  intro fuel
  induction fuel with
  | zero => intro a o; exact ⟨Nat.le_add_right _ _, rfl, rfl⟩
  | succ n ih =>
    intro a o
    simp only [retryAttempts]
    obtain ⟨hc1, hc2, hc3⟩ :=
      applyJobAct_counts { o with jobCalls := o.jobCalls + 1 } (env it a)
    dsimp only at hc1 hc2 hc3
    cases hres : (env it a).res with
    | panics p =>
      simp only [hres]
      exact ⟨by omega, by omega, by omega⟩
    | ok =>
      simp only [hres]
      exact ⟨by omega, by omega, by omega⟩
    | fail e =>
      simp only [hres]
      split
      · obtain ⟨hr1, hr2, hr3⟩ := ih (a + 1)
          (applyJobAct { o with jobCalls := o.jobCalls + 1 } (env it a))
        exact ⟨by omega, by omega, by omega⟩
      · dsimp only
        exact ⟨by omega, by omega, by omega⟩

/-- Claim C4 (amended): with a retry strategy, after a failed attempt the
job is invoked again iff the attempt index is below `MaxRetries()`,
`ShouldRetry(err)` holds, `NextRetryDelay` is nonzero, and the task's
cancellation token has not fired (a fired token during the retry wait also
ends the iteration); when the decision is negative the iteration ends with
that attempt's error; and each iteration makes at most `maxRetries + 1`
job invocations. -/
theorem C4_retry_decision_amended (M : Nat) (ip ce : Bool) (R : Nat)
    (sr : Nat → Bool) (dz : Nat → Nat → Bool) :
    (∀ (c : Bool) (e attempt maxR : Nat),
      taskShouldRetry ⟨M, ip, ce, .strategy R sr dz⟩ c e attempt maxR = true ↔
        (attempt < maxR ∧ sr e = true ∧ dz attempt e = false ∧ c = false)) ∧
    (∀ (env : JobEnv) (it : Nat) (o : Obs),
      (execJobWithRetry ⟨M, ip, ce, .strategy R sr dz⟩ env it o).1.jobCalls
        ≤ o.jobCalls + (R + 1)) ∧
    (∀ (env : JobEnv) (it attempt fuel : Nat) (o : Obs) (e : Nat),
      (env it attempt).res = .fail e →
      taskShouldRetry ⟨M, ip, ce, .strategy R sr dz⟩
        (applyJobAct { o with jobCalls := o.jobCalls + 1 } (env it attempt)).ctxCancelled
        e attempt R = false →
      retryAttempts ⟨M, ip, ce, .strategy R sr dz⟩ env it R attempt (fuel + 1) o
        = (applyJobAct { o with jobCalls := o.jobCalls + 1 } (env it attempt),
           .done (some e))) := by
  refine ⟨?_, ?_, ?_⟩
  · intro c e attempt maxR
    unfold taskShouldRetry
    by_cases hle : maxR ≤ attempt
    · simp only [hle, if_true, Bool.false_eq_true, false_iff]
      rintro ⟨h1, -, -, -⟩
      omega
    · cases hsr : sr e <;> cases hdz : dz attempt e <;> cases c <;>
        simp [hle, hsr, hdz] <;> omega
  · intro env it o
    exact (retryAttempts_counts ⟨M, ip, ce, .strategy R sr dz⟩ env it R (R + 1) 0 o).1
  · intro env it attempt fuel o e hfail hstop
    simp [retryAttempts, hfail, hstop]

/-- Witness for C4: a positive retry decision at a concrete strategy and
attempt. -/
theorem C4_witness :
    taskShouldRetry ⟨0, false, false, .strategy 2 (fun _ => true) (fun _ _ => false)⟩
      false 7 0 2 = true :=
  ((C4_retry_decision_amended 0 false false 2 (fun _ => true) (fun _ _ => false)).1
    false 7 0 2).mpr ⟨by omega, rfl, rfl, rfl⟩

/-- Counterexample to C4 as stated: the job calls the task's own `Stop()`
and then fails; attempt 0 is below `MaxRetries() = 2`, `ShouldRetry`
always answers true and the delay is never zero, yet the retry wait
observes the fired token and the job is not invoked a second time — the
whole run makes exactly one job invocation. -/
theorem C4_counterexample :
    (runTask ⟨0, false, false, .strategy 2 (fun _ => true) (fun _ _ => false)⟩
      (fun _ _ => ⟨true, [], .fail 7⟩) 3).jobCalls = 1 ∧
    (0 < 2 ∧ (fun (_ : Nat) => true) 7 = true ∧
      (fun (_ : Nat) (_ : Nat) => false) 0 7 = false) := by
  constructor
  · decide
  · exact ⟨by omega, rfl, rfl⟩

/-! ### C2 — maxRuns bounds the iterations and job invocations -/

/-- The attempt cycle performs at most `maxRetries + 1` job invocations
and does not touch the iteration or run counters. -/
theorem execJobWithRetry_counts (cfg : TaskCfg) (env : JobEnv) (it : Nat) (o : Obs) :
    (execJobWithRetry cfg env it o).1.jobCalls ≤ o.jobCalls + (cfg.retry.maxRetries + 1) ∧
    (execJobWithRetry cfg env it o).1.runCount = o.runCount ∧
    (execJobWithRetry cfg env it o).1.iters = o.iters :=
  retryAttempts_counts cfg env it cfg.retry.maxRetries (cfg.retry.maxRetries + 1) 0 o

/-- `handleJobResult` does not touch the counters. -/
theorem handleJobResult_counts (cfg : TaskCfg) (o : Obs) (res : Option Nat) :
    (handleJobResult cfg o res).1.runCount = o.runCount ∧
    (handleJobResult cfg o res).1.iters = o.iters ∧
    (handleJobResult cfg o res).1.jobCalls = o.jobCalls := by
  cases res with
  | none => exact ⟨rfl, rfl, rfl⟩
  | some e =>
    unfold handleJobResult
    dsimp only
    split
    · exact ⟨rfl, rfl, rfl⟩
    · exact ⟨rfl, rfl, rfl⟩

/-- `checkMaxRuns` increments the run count exactly once per iteration
and returns false (completing the task) exactly at `maxRuns > 0` runs. -/
theorem checkMaxRuns_spec (cfg : TaskCfg) (o : Obs) :
    (checkMaxRuns cfg o).1.runCount = o.runCount + 1 ∧
    (checkMaxRuns cfg o).1.iters = o.iters ∧
    (checkMaxRuns cfg o).1.jobCalls = o.jobCalls ∧
    ((checkMaxRuns cfg o).2 = true ↔ ¬(0 < cfg.maxRuns ∧ cfg.maxRuns ≤ o.runCount + 1)) ∧
    ((checkMaxRuns cfg o).2 = false → (checkMaxRuns cfg o).1.state = .completed) := by
  unfold checkMaxRuns
  dsimp only
  split
  · rename_i hc
    refine ⟨rfl, rfl, rfl, ?_, fun _ => rfl⟩
    simp [hc]
  · rename_i hc
    refine ⟨rfl, rfl, rfl, ?_, by simp⟩
    simp [hc]

/-- `waitForNextRun` does not touch the counters and is the identity when
it lets the next iteration start. -/
theorem waitForNextRun_spec (o : Obs) :
    (waitForNextRun o).1.runCount = o.runCount ∧
    (waitForNextRun o).1.iters = o.iters ∧
    (waitForNextRun o).1.jobCalls = o.jobCalls ∧
    ((waitForNextRun o).2 = true → (waitForNextRun o).1 = o) := by
  unfold waitForNextRun
  split
  · exact ⟨rfl, rfl, rfl, by simp⟩
  · exact ⟨rfl, rfl, rfl, fun _ => rfl⟩

/-- Behaviour of one iteration: it advances the iteration counter by one,
makes at most `maxRetries + 1` job invocations, grows the run count by at
most one, continues only below `maxRuns`, reaches Completed exactly when
the run count arrives at `maxRuns > 0`, and a panic leaves the run count
untouched. -/
theorem oneIteration_spec (cfg : TaskCfg) (env : JobEnv) (o : Obs) :
    (oneIteration cfg env o).1.iters = o.iters + 1 ∧
    (oneIteration cfg env o).1.jobCalls ≤ o.jobCalls + (cfg.retry.maxRetries + 1) ∧
    (oneIteration cfg env o).1.runCount ≤ o.runCount + 1 ∧
    ((oneIteration cfg env o).2 = .next →
      (oneIteration cfg env o).1.runCount = o.runCount + 1 ∧
      ¬(0 < cfg.maxRuns ∧ cfg.maxRuns ≤ o.runCount + 1)) ∧
    (0 < cfg.maxRuns → o.runCount < cfg.maxRuns →
      cfg.maxRuns ≤ (oneIteration cfg env o).1.runCount →
      (oneIteration cfg env o).1.state = .completed ∧
        (oneIteration cfg env o).2 = .stop) ∧
    (∀ p, (oneIteration cfg env o).2 = .panicked p →
      (oneIteration cfg env o).1.runCount = o.runCount) := by
  unfold oneIteration
  dsimp only
  rcases hr : execJobWithRetry cfg env o.iters
      { o with iters := o.iters + 1, lastRunTime := o.iters + 1 } with ⟨o1, out⟩
  have he := execJobWithRetry_counts cfg env o.iters
    { o with iters := o.iters + 1, lastRunTime := o.iters + 1 }
  rw [hr] at he
  dsimp only at he
  obtain ⟨he1, he2, he3⟩ := he
  cases out with
  | panicked p =>
    dsimp only
    refine ⟨by omega, by omega, by omega, by intro h; simp at h, ?_, fun p' _ => by omega⟩
    intro hM hlt hge
    rw [he2] at hge
    omega
  | done res =>
    dsimp only
    rcases hh : handleJobResult cfg o1 res with ⟨o2, b2⟩
    have hhc := handleJobResult_counts cfg o1 res
    rw [hh] at hhc
    dsimp only at hhc
    obtain ⟨hh1, hh2, hh3⟩ := hhc
    cases b2 with
    | false =>
      dsimp only
      refine ⟨by omega, by omega, by omega, by intro h; simp at h, ?_,
        fun p' h => by simp at h⟩
      intro hM hlt hge
      rw [hh1, he2] at hge
      omega
    | true =>
      dsimp only
      rcases hc : checkMaxRuns cfg o2 with ⟨o3, b3⟩
      have hcs := checkMaxRuns_spec cfg o2
      rw [hc] at hcs
      dsimp only at hcs
      obtain ⟨hc1, hc2, hc3, hc4, hc5⟩ := hcs
      cases b3 with
      | false =>
        dsimp only
        refine ⟨by omega, by omega, by omega, by intro h; simp at h, ?_,
          fun p' h => by simp at h⟩
        intro hM hlt hge
        exact ⟨hc5 rfl, rfl⟩
      | true =>
        have hnm : ¬(0 < cfg.maxRuns ∧ cfg.maxRuns ≤ o2.runCount + 1) := hc4.mp rfl
        rw [hh1, he2] at hnm
        dsimp only
        split
        · dsimp only [setState]
          refine ⟨by omega, by omega, by omega, by intro h; simp at h, ?_,
            fun p' h => by simp at h⟩
          intro hM hlt hge
          exact ⟨rfl, rfl⟩
        · rcases hw : waitForNextRun o3 with ⟨o4, b4⟩
          have hws := waitForNextRun_spec o3
          rw [hw] at hws
          dsimp only at hws
          obtain ⟨hw1, hw2, hw3, hw4⟩ := hws
          cases b4 with
          | false =>
            dsimp only
            refine ⟨by omega, by omega, by omega, by intro h; simp at h, ?_,
              fun p' h => by simp at h⟩
            intro hM hlt hge
            rw [hw1, hc1, hh1, he2] at hge
            exact absurd ⟨hM, by omega⟩ hnm
          | true =>
            dsimp only
            refine ⟨by omega, by omega, by omega, fun _ => ⟨by omega, hnm⟩, ?_,
              fun p' h => by simp at h⟩
            intro hM hlt hge
            rw [hw1, hc1, hh1, he2] at hge
            exact absurd ⟨hM, by omega⟩ hnm

/-- Main-loop invariant under `maxRuns > 0`: starting from a state whose
iteration and run counters agree and sit below `maxRuns`, the loop keeps
the iteration count within `maxRuns`, the run count within the iteration
count, the job invocations within `iters * (maxRetries + 1)`, and if the
run count reaches `maxRuns` the task has completed and no panic escaped. -/
theorem mainLoop_inv (cfg : TaskCfg) (env : JobEnv) (hM : 0 < cfg.maxRuns) :
    ∀ fuel (o : Obs), o.iters = o.runCount → o.runCount < cfg.maxRuns →
      o.jobCalls ≤ o.iters * (cfg.retry.maxRetries + 1) →
      (mainLoop cfg env fuel o).1.iters ≤ cfg.maxRuns ∧
      (mainLoop cfg env fuel o).1.runCount ≤ (mainLoop cfg env fuel o).1.iters ∧
      (mainLoop cfg env fuel o).1.runCount ≤ cfg.maxRuns ∧
      (mainLoop cfg env fuel o).1.jobCalls
        ≤ (mainLoop cfg env fuel o).1.iters * (cfg.retry.maxRetries + 1) ∧
      ((mainLoop cfg env fuel o).1.runCount = cfg.maxRuns →
        (mainLoop cfg env fuel o).1.state = .completed ∧
        (mainLoop cfg env fuel o).2 = none) := by
  intro fuel
  induction fuel with
  | zero =>
    intro o h1 h2 h3
    simp only [mainLoop]
    exact ⟨by omega, by omega, by omega, h3, fun h => absurd h (by omega)⟩
  | succ n ih =>
    intro o h1 h2 h3
    simp only [mainLoop]
    split
    · dsimp only [setState]
      exact ⟨by omega, by omega, by omega, h3, fun h => absurd h (by omega)⟩
    · rcases hr : oneIteration cfg env o with ⟨o1, out⟩
      have hs := oneIteration_spec cfg env o
      rw [hr] at hs
      dsimp only at hs
      obtain ⟨hs1, hs2, hs3, hs4, hs5, hs6⟩ := hs
      have hjc : o1.jobCalls ≤ o1.iters * (cfg.retry.maxRetries + 1) := by
        rw [hs1, Nat.succ_mul]
        omega
      cases out with
      | next =>
        obtain ⟨hn1, hn2⟩ := hs4 rfl
        dsimp only
        exact ih o1 (by omega) (by omega) hjc
      | stop =>
        dsimp only
        refine ⟨by omega, by omega, by omega, hjc, ?_⟩
        intro hrc
        exact ⟨(hs5 hM h2 (by omega)).1, rfl⟩
      | panicked p =>
        have hp := hs6 p rfl
        dsimp only
        exact ⟨by omega, by omega, by omega, hjc, fun h => absurd h (by omega)⟩

/-- Claim C2: with `maxRuns = M > 0` and effective retry bound `R`, a full
run of a fresh task performs at most `M` iterations, the run count never
exceeds the iteration count (one increment per iteration regardless of
retries), at most `M * (R + 1)` user-job invocations happen, and when the
`M`-th iteration finishes (the run count reaches `M`) the task is in state
Completed. -/
theorem C2_maxruns_bound (cfg : TaskCfg) (env : JobEnv) (fuel : Nat)
    (hM : 0 < cfg.maxRuns) :
    (runTask cfg env fuel).iters ≤ cfg.maxRuns ∧
    (runTask cfg env fuel).runCount ≤ (runTask cfg env fuel).iters ∧
    (runTask cfg env fuel).jobCalls ≤ cfg.maxRuns * (cfg.retry.maxRetries + 1) ∧
    ((runTask cfg env fuel).runCount = cfg.maxRuns →
      (runTask cfg env fuel).state = .completed) := by
  unfold runTask runTaskFrom
  rw [if_neg (by simp [initObs])]
  rcases hm : mainLoop cfg env fuel (setState initObs .runningT) with ⟨o1, pr⟩
  have hinv := mainLoop_inv cfg env hM fuel (setState initObs .runningT) rfl hM
    (by simp [setState, initObs])
  rw [hm] at hinv
  dsimp only at hinv
  obtain ⟨h1, h2, h3, h4, h5⟩ := hinv
  have hjc : o1.jobCalls ≤ cfg.maxRuns * (cfg.retry.maxRetries + 1) :=
    le_trans h4 (Nat.mul_le_mul_right _ h1)
  cases pr with
  | none => exact ⟨h1, h2, hjc, fun h => (h5 h).1⟩
  | some p =>
    dsimp only [handlePanic, setState]
    refine ⟨h1, h2, hjc, ?_⟩
    intro h
    exact absurd (h5 h).2 (by simp)

/-- Witness for C2: a task with `maxRuns = 2`, one retry, an always-ok
job and enough fuel runs exactly twice and completes. -/
theorem C2_witness :
    (runTask ⟨2, true, false, .simple 1⟩ (fun _ _ => ⟨false, [], .ok⟩) 5).iters ≤ 2 ∧
    (runTask ⟨2, true, false, .simple 1⟩ (fun _ _ => ⟨false, [], .ok⟩) 5).runCount
      ≤ (runTask ⟨2, true, false, .simple 1⟩ (fun _ _ => ⟨false, [], .ok⟩) 5).iters ∧
    (runTask ⟨2, true, false, .simple 1⟩ (fun _ _ => ⟨false, [], .ok⟩) 5).jobCalls
      ≤ 2 * (1 + 1) ∧
    ((runTask ⟨2, true, false, .simple 1⟩ (fun _ _ => ⟨false, [], .ok⟩) 5).runCount = 2 →
      (runTask ⟨2, true, false, .simple 1⟩ (fun _ _ => ⟨false, [], .ok⟩) 5).state
        = .completed) :=
  C2_maxruns_bound ⟨2, true, false, .simple 1⟩ (fun _ _ => ⟨false, [], .ok⟩) 5 (by decide)

/-! ### C6 — dequeue returns a maximum-priority item -/

/-- `Swap` preserves the slice length. -/
theorem length_swapQ (l : List QItem) (a b : Nat) :
    (swapQ l a b).length = l.length := by
  simp [swapQ]

/-- Contents of the slice after a `Swap`. -/
theorem getElem?_swapQ (l : List QItem) (a b k : Nat) (ha : a < l.length)
    (hb : b < l.length) :
    (swapQ l a b)[k]? = if k = a then l[b]? else if k = b then l[a]? else l[k]? := by
  unfold swapQ
  by_cases hkb : k = b
  · subst hkb
    rw [List.getElem?_set_self (by simpa using hb)]
    by_cases hka : k = a
    · subst hka
      simp [List.getD_eq_getElem l (0, 0) ha, List.getElem?_eq_getElem ha]
    · simp [hka, List.getD_eq_getElem l (0, 0) ha, List.getElem?_eq_getElem ha]
  · rw [List.getElem?_set_ne (fun hh => hkb hh.symm)]
    by_cases hka : k = a
    · subst hka
      rw [List.getElem?_set_self ha]
      simp [hkb, List.getD_eq_getElem l (0, 0) hb, List.getElem?_eq_getElem hb]
    · rw [List.getElem?_set_ne (fun hh => hka hh.symm)]
      simp [hka, hkb]

/-- Priority view of a `Swap`: slot `a` takes the old priority of `b`. -/
theorem priAt_swapQ_left (l : List QItem) (a b : Nat) (ha : a < l.length)
    (hb : b < l.length) : priAt (swapQ l a b) a = priAt l b := by
  unfold priAt
  rw [List.getD_eq_getElem?_getD, List.getD_eq_getElem?_getD,
    getElem?_swapQ l a b a ha hb]
  simp

/-- Priority view of a `Swap`: slot `b` takes the old priority of `a`. -/
theorem priAt_swapQ_right (l : List QItem) (a b : Nat) (ha : a < l.length)
    (hb : b < l.length) : priAt (swapQ l a b) b = priAt l a := by
  unfold priAt
  rw [List.getD_eq_getElem?_getD, List.getD_eq_getElem?_getD,
    getElem?_swapQ l a b b ha hb]
  by_cases hba : b = a
  · subst hba
    simp
  · simp [hba]

/-- Priority view of a `Swap`: other slots are unchanged. -/
theorem priAt_swapQ_other (l : List QItem) (a b k : Nat) (ha : a < l.length)
    (hb : b < l.length) (hka : k ≠ a) (hkb : k ≠ b) :
    priAt (swapQ l a b) k = priAt l k := by
  unfold priAt
  rw [List.getD_eq_getElem?_getD, List.getD_eq_getElem?_getD,
    getElem?_swapQ l a b k ha hb]
  simp [hka, hkb]

/-- In a max-heap slice the root has the greatest priority. -/
theorem isHeapUpTo_root_max (l : List QItem) (n : Nat) (h : IsHeapUpTo l n) :
    ∀ k, k < n → priAt l k ≤ priAt l 0 := by
  intro k
  induction k using Nat.strong_induction_on with
  | _ k ih =>
    intro hk
    rcases Nat.eq_zero_or_pos k with hk0 | hk0
    · subst hk0
      exact le_refl _
    · have hlt : parentIdx k < k := by
        unfold parentIdx
        have := Nat.div_le_self (k - 1) 2
        omega
      exact le_trans (h k hk0 hk) (ih (parentIdx k) hlt (lt_trans hlt hk))

/-- Correctness of the sift-up loop of `container/heap`: from a slice that
is a heap everywhere except possibly on the edge into slot `j`, with the
children of `j` already bounded by `j`'s parent, the loop restores the
heap property on the whole slice. -/
theorem siftUp_isHeap :
    ∀ j (l : List QItem), j < l.length →
      (∀ c, 0 < c → c < l.length → c ≠ j → priAt l c ≤ priAt l (parentIdx c)) →
      (∀ c, 0 < c → c < l.length → parentIdx c = j → 0 < j →
        priAt l c ≤ priAt l (parentIdx j)) →
      IsHeap (siftUp l j) := by
  intro j
  induction j using Nat.strong_induction_on with
  | _ j ih =>
    intro l hlen hheap hlower
    rw [siftUp]
    by_cases hj0 : j = 0
    · rw [dif_pos hj0]
      intro c hc0 hc
      exact hheap c hc0 hc (by omega)
    · rw [dif_neg hj0]
      have hpj : parentIdx j < j := by
        unfold parentIdx
        have := Nat.div_le_self (j - 1) 2
        omega
      have hpjlen : parentIdx j < l.length := lt_trans hpj hlen
      by_cases hlt : priAt l (parentIdx j) < priAt l j
      · rw [if_pos hlt]
        apply ih (parentIdx j) hpj
        · rw [length_swapQ]
          exact hpjlen
        · intro c hc0 hclen hci
          rw [length_swapQ] at hclen
          by_cases hcj : c = j
          · subst hcj
            rw [priAt_swapQ_right l (parentIdx c) c hpjlen hlen,
              priAt_swapQ_left l (parentIdx c) c hpjlen hlen]
            exact le_of_lt hlt
          · rw [priAt_swapQ_other l (parentIdx j) j c hpjlen hlen hci hcj]
            by_cases hpcj : parentIdx c = j
            · rw [hpcj, priAt_swapQ_right l (parentIdx j) j hpjlen hlen]
              exact hlower c hc0 hclen hpcj (by omega)
            · by_cases hpci : parentIdx c = parentIdx j
              · rw [hpci, priAt_swapQ_left l (parentIdx j) j hpjlen hlen]
                refine le_trans ?_ (le_of_lt hlt)
                rw [← hpci]
                exact hheap c hc0 hclen hcj
              · rw [priAt_swapQ_other l (parentIdx j) j (parentIdx c) hpjlen hlen
                  hpci hpcj]
                exact hheap c hc0 hclen hcj
        · intro c hc0 hclen hpc hj0'
          rw [length_swapQ] at hclen
          have hppj : parentIdx (parentIdx j) < parentIdx j := by
            unfold parentIdx at hj0' ⊢
            have := Nat.div_le_self ((j - 1) / 2 - 1) 2
            omega
          have hppne1 : parentIdx (parentIdx j) ≠ parentIdx j := by omega
          have hppne2 : parentIdx (parentIdx j) ≠ j := by omega
          rw [priAt_swapQ_other l (parentIdx j) j (parentIdx (parentIdx j)) hpjlen hlen
            hppne1 hppne2]
          have hstar : priAt l (parentIdx j) ≤ priAt l (parentIdx (parentIdx j)) :=
            hheap (parentIdx j) hj0' hpjlen (by omega)
          by_cases hcj : c = j
          · subst hcj
            rw [priAt_swapQ_right l (parentIdx c) c hpjlen hlen]
            exact hstar
          · have hcpq : parentIdx c < c := by
              unfold parentIdx
              have := Nat.div_le_self (c - 1) 2
              omega
            have hcpi : c ≠ parentIdx j := by omega
            rw [priAt_swapQ_other l (parentIdx j) j c hpjlen hlen hcpi hcj]
            refine le_trans ?_ hstar
            rw [← hpc]
            exact hheap c hc0 hclen hcj
      · rw [if_neg hlt]
        intro c hc0 hc
        by_cases hcj : c = j
        · subst hcj
          exact le_of_not_lt hlt
        · exact hheap c hc0 hc hcj

/-- The child chosen by the sift-down loop: its index and that it carries
the larger of the two child priorities. -/
theorem maxChildIdx_spec (l : List QItem) (i n : Nat) (h : 2*i + 1 < n) :
    (maxChildIdx l i n = 2*i + 1 ∨ maxChildIdx l i n = 2*i + 2) ∧
    i < maxChildIdx l i n ∧ maxChildIdx l i n < n ∧
    parentIdx (maxChildIdx l i n) = i ∧
    priAt l (2*i + 1) ≤ priAt l (maxChildIdx l i n) ∧
    (2*i + 2 < n → priAt l (2*i + 2) ≤ priAt l (maxChildIdx l i n)) := by
  unfold maxChildIdx
  split
  · rename_i hcond
    refine ⟨Or.inr rfl, by omega, by omega, ?_, le_of_lt hcond.2, fun _ => le_refl _⟩
    unfold parentIdx
    omega
  · rename_i hcond
    rw [not_and] at hcond
    refine ⟨Or.inl rfl, by omega, h, ?_, le_refl _, ?_⟩
    · unfold parentIdx
      omega
    · intro h22
      exact le_of_not_lt (hcond h22)

/-- Correctness of the sift-down loop of `container/heap`: from a slice
whose first `n` slots are a heap except possibly on the edges out of the
hole `i`, with the children of `i` already bounded by `i`'s parent, the
loop restores the heap property on the first `n` slots.  The fuel bound
`n ≤ d + i` mirrors the loop's termination measure. -/
theorem siftDown_heapUpTo :
    ∀ (d : Nat) (l : List QItem) (i n : Nat), n ≤ d + i →
      n ≤ l.length → i < n →
      (∀ c, 0 < c → c < n → parentIdx c ≠ i → priAt l c ≤ priAt l (parentIdx c)) →
      (0 < i → ∀ c, c < n → parentIdx c = i → priAt l c ≤ priAt l (parentIdx i)) →
      IsHeapUpTo (siftDown l i n) n := by
  intro d
  induction d with
  | zero =>
    intro l i n hd hnl hin hheap hupper
    exact absurd hin (by omega)
  | succ d ih =>
    intro l i n hd hnl hin hheap hupper
    rw [siftDown]
    by_cases hch : 2*i + 1 < n
    · rw [dif_pos hch]
      dsimp only
      obtain ⟨hj12, hij, hjn, hpj, hmax1, hmax2⟩ := maxChildIdx_spec l i n hch
      have hilen : i < l.length := by omega
      have hjlen : maxChildIdx l i n < l.length := by omega
      by_cases hlt : priAt l i < priAt l (maxChildIdx l i n)
      · rw [if_pos hlt]
        apply ih (swapQ l i (maxChildIdx l i n)) (maxChildIdx l i n) n (by omega)
        · rw [length_swapQ]
          exact hnl
        · exact hjn
        · intro c hc0 hcn hpcj
          by_cases hci : c = i
          · rw [hci]
            have hpii : parentIdx i < i := by
              unfold parentIdx
              have := Nat.div_le_self (i - 1) 2
              omega
            have hp1 : parentIdx i ≠ i := by omega
            have hp2 : parentIdx i ≠ maxChildIdx l i n := by omega
            rw [priAt_swapQ_left l i (maxChildIdx l i n) hilen hjlen,
              priAt_swapQ_other l i (maxChildIdx l i n) (parentIdx i) hilen hjlen
                hp1 hp2]
            exact hupper (by omega) (maxChildIdx l i n) hjn hpj
          · by_cases hcjx : c = maxChildIdx l i n
            · rw [hcjx, hpj,
                priAt_swapQ_right l i (maxChildIdx l i n) hilen hjlen,
                priAt_swapQ_left l i (maxChildIdx l i n) hilen hjlen]
              exact le_of_lt hlt
            · rw [priAt_swapQ_other l i (maxChildIdx l i n) c hilen hjlen hci hcjx]
              by_cases hpci : parentIdx c = i
              · rw [hpci, priAt_swapQ_left l i (maxChildIdx l i n) hilen hjlen]
                have hc12 : c = 2*i + 1 ∨ c = 2*i + 2 := by
                  unfold parentIdx at hpci
                  omega
                rcases hc12 with hce | hce
                · rw [hce]
                  exact hmax1
                · rw [hce]
                  exact hmax2 (by omega)
              · rw [priAt_swapQ_other l i (maxChildIdx l i n) (parentIdx c) hilen hjlen
                  hpci hpcj]
                exact hheap c hc0 hcn hpci
        · intro hj0 c hcn hpcx
          have hcbig : 2 * maxChildIdx l i n + 1 ≤ c := by
            unfold parentIdx at hpcx
            omega
          have hc0 : 0 < c := by omega
          have hci : c ≠ i := by omega
          have hcjx : c ≠ maxChildIdx l i n := by omega
          rw [hpj, priAt_swapQ_left l i (maxChildIdx l i n) hilen hjlen,
            priAt_swapQ_other l i (maxChildIdx l i n) c hilen hjlen hci hcjx]
          have := hheap c hc0 hcn (by omega)
          rw [hpcx] at this
          exact this
      · rw [if_neg hlt]
        intro c hc0 hcn
        by_cases hpc : parentIdx c = i
        · have hc12 : c = 2*i + 1 ∨ c = 2*i + 2 := by
            unfold parentIdx at hpc
            omega
          rw [hpc]
          refine le_trans ?_ (le_of_not_lt hlt)
          rcases hc12 with hce | hce
          · rw [hce]
            exact hmax1
          · rw [hce]
            exact hmax2 (by omega)
        · exact hheap c hc0 hcn hpc
    · rw [dif_neg hch]
      intro c hc0 hcn
      by_cases hpc : parentIdx c = i
      · exfalso
        unfold parentIdx at hpc
        omega
      · exact hheap c hc0 hcn hpc

/-- The sift-down loop preserves the slice length. -/
theorem siftDown_length :
    ∀ (d : Nat) (l : List QItem) (i n : Nat), n ≤ d + i →
      (siftDown l i n).length = l.length := by
  intro d
  induction d with
  | zero =>
    intro l i n hd
    rw [siftDown, dif_neg (by omega)]
  | succ d ih =>
    intro l i n hd
    rw [siftDown]
    by_cases hch : 2*i + 1 < n
    · rw [dif_pos hch]
      dsimp only
      obtain ⟨-, hij, -, -, -, -⟩ := maxChildIdx_spec l i n hch
      by_cases hlt : priAt l i < priAt l (maxChildIdx l i n)
      · rw [if_pos hlt, ih (swapQ l i (maxChildIdx l i n)) (maxChildIdx l i n) n
          (by omega), length_swapQ]
      · rw [if_neg hlt]
    · rw [dif_neg hch]

/-- The sift-down loop only touches slots below `n`. -/
theorem siftDown_getElem_frame :
    ∀ (d : Nat) (l : List QItem) (i n : Nat), n ≤ d + i → n ≤ l.length →
      ∀ k, n ≤ k → (siftDown l i n)[k]? = l[k]? := by
  intro d
  induction d with
  | zero =>
    intro l i n hd hnl k hk
    rw [siftDown, dif_neg (by omega)]
  | succ d ih =>
    intro l i n hd hnl k hk
    rw [siftDown]
    by_cases hch : 2*i + 1 < n
    · rw [dif_pos hch]
      dsimp only
      obtain ⟨-, hij, hjn, -, -, -⟩ := maxChildIdx_spec l i n hch
      by_cases hlt : priAt l i < priAt l (maxChildIdx l i n)
      · rw [if_pos hlt,
          ih (swapQ l i (maxChildIdx l i n)) (maxChildIdx l i n) n (by omega)
            (by rw [length_swapQ]; exact hnl) k hk,
          getElem?_swapQ l i (maxChildIdx l i n) k (by omega) (by omega)]
        rw [if_neg (by omega), if_neg (by omega)]
      · rw [if_neg hlt]
    · rw [dif_neg hch]

/-- Priorities in the appended slice, below the original length. -/
theorem priAt_append_lt (l : List QItem) (x : QItem) (k : Nat) (hk : k < l.length) :
    priAt (l ++ [x]) k = priAt l k := by
  unfold priAt
  rw [List.getD_eq_getElem?_getD, List.getD_eq_getElem?_getD, List.getElem?_append,
    if_pos hk]

/-- Priorities in a prefix of the slice. -/
theorem priAt_take (l : List QItem) (n k : Nat) (hk : k < n) :
    priAt (l.take n) k = priAt l k := by
  unfold priAt
  rw [List.getD_eq_getElem?_getD, List.getD_eq_getElem?_getD, List.getElem?_take,
    if_pos hk]

/-- `heap.Push` (as called by `Enqueue`) preserves the heap property. -/
theorem pqEnqueue_isHeap (l : List QItem) (x : QItem) (h : IsHeap l) :
    IsHeap (pqEnqueue l x) := by
  unfold pqEnqueue
  apply siftUp_isHeap l.length (l ++ [x]) (by simp)
  · intro c hc0 hclen hcj
    simp only [List.length_append, List.length_singleton] at hclen
    have hc : c < l.length := by omega
    have hpc : parentIdx c < c := by
      unfold parentIdx
      have := Nat.div_le_self (c - 1) 2
      omega
    rw [priAt_append_lt l x c hc, priAt_append_lt l x (parentIdx c) (by omega)]
    exact h c hc0 hc
  · intro c hc0 hclen hpc hj0
    exfalso
    simp only [List.length_append, List.length_singleton] at hclen
    unfold parentIdx at hpc
    omega

/-- `heap.Pop` (as called by `Dequeue` on a nonempty queue) returns the
root — an item of maximal enqueue-time priority — removes exactly one
item, and leaves a heap. -/
theorem pqDequeue_spec (l : List QItem) (h : IsHeap l) (x : QItem) (l' : List QItem)
    (hd : pqDequeue l = some (x, l')) :
    IsHeap l' ∧ l'.length + 1 = l.length ∧ x ∈ l ∧ ∀ y ∈ l, y.2 ≤ x.2 := by
  unfold pqDequeue at hd
  by_cases hlen : l.length = 0
  · rw [if_pos hlen] at hd
    exact absurd hd (by simp)
  · rw [if_neg hlen] at hd
    dsimp only at hd
    rw [Option.some_inj, Prod.mk.injEq] at hd
    obtain ⟨hx, hl'⟩ := hd
    have hlenpos : 0 < l.length := by omega
    have hl1len : (swapQ l 0 (l.length - 1)).length = l.length := length_swapQ l 0 _
    have hl2len : (siftDown (swapQ l 0 (l.length - 1)) 0 (l.length - 1)).length
        = l.length := by
      rw [siftDown_length (l.length - 1) _ 0 _ (by omega), hl1len]
    have hframe : (siftDown (swapQ l 0 (l.length - 1)) 0 (l.length - 1))[l.length - 1]?
        = l[0]? := by
      rw [siftDown_getElem_frame (l.length - 1) _ 0 _ (by omega) (by omega) _
        (Nat.le_refl _)]
      rw [getElem?_swapQ l 0 (l.length - 1) (l.length - 1) hlenpos (by omega)]
      by_cases h0 : l.length - 1 = 0
      · rw [if_pos h0, h0]
      · rw [if_neg h0, if_pos rfl]
    have hxval : x = l.getD 0 (0, 0) := by
      rw [← hx, List.getD_eq_getElem?_getD, List.getD_eq_getElem?_getD, hframe]
    refine ⟨?_, ?_, ?_, ?_⟩
    · -- the remaining slice is a heap
      rw [← hl']
      by_cases h0 : l.length - 1 = 0
      · rw [h0]
        intro c hc0 hc
        simp at hc
      · have hheap2 : IsHeapUpTo (siftDown (swapQ l 0 (l.length - 1)) 0 (l.length - 1))
            (l.length - 1) := by
          apply siftDown_heapUpTo (l.length - 1) _ 0 _ (by omega) (by omega) (by omega)
          · intro c hc0 hcn hpc
            have hpcc : parentIdx c < c := by
              unfold parentIdx
              have := Nat.div_le_self (c - 1) 2
              omega
            rw [priAt_swapQ_other l 0 (l.length - 1) c hlenpos (by omega) (by omega)
                (by omega),
              priAt_swapQ_other l 0 (l.length - 1) (parentIdx c) hlenpos (by omega)
                (by omega) (by omega)]
            exact h c hc0 (by omega)
          · intro h00
            exact absurd h00 (by omega)
        intro c hc0 hc
        rw [List.length_take, hl2len] at hc
        have hcn : c < l.length - 1 := by omega
        have hpcc : parentIdx c < c := by
          unfold parentIdx
          have := Nat.div_le_self (c - 1) 2
          omega
        rw [priAt_take _ _ _ hcn, priAt_take _ _ _ (by omega)]
        exact hheap2 c hc0 hcn
    · rw [← hl', List.length_take, hl2len]
      omega
    · rw [hxval, List.getD_eq_getElem l (0, 0) hlenpos]
      exact List.getElem_mem hlenpos
    · intro y hy
      obtain ⟨k, hk⟩ := List.mem_iff_getElem?.mp hy
      obtain ⟨hklen, hkv⟩ := List.getElem?_eq_some.mp hk
      have hroot := isHeapUpTo_root_max l l.length h k hklen
      have hy2 : y.2 = priAt l k := by
        rw [← hkv]
        unfold priAt
        rw [List.getD_eq_getElem l (0, 0) hklen]
      rw [hxval, hy2]
      exact hroot

/-- Every queue state reachable through the API is a max-heap. -/
theorem pqReachable_isHeap : ∀ {l : List QItem}, PQReachable l → IsHeap l := by
  intro l h
  induction h with
  | empty =>
    intro c hc0 hc
    simp at hc
  | enq hr ih => exact pqEnqueue_isHeap _ _ ih
  | deq hr hd ih => exact (pqDequeue_spec _ ih _ _ hd).1

/-- Claim C6: on every reachable priority queue, `Dequeue` returns nil
exactly on the empty queue (no blocking), and otherwise removes and
returns an item whose enqueue-time priority is greater than or equal to
the enqueue-time priority of every item in the queue at that instant. -/
theorem C6_dequeue_max (l : List QItem) (h : PQReachable l) :
    (pqDequeue l = none ↔ l = []) ∧
    ∀ x l', pqDequeue l = some (x, l') →
      (∀ y ∈ l, y.2 ≤ x.2) ∧ x ∈ l ∧ l'.length + 1 = l.length := by
  have hh := pqReachable_isHeap h
  constructor
  · unfold pqDequeue
    by_cases hlen : l.length = 0
    · rw [if_pos hlen]
      simp [List.length_eq_zero.mp hlen]
    · rw [if_neg hlen]
      dsimp only
      constructor
      · intro he
        exact absurd he (by simp)
      · intro he
        rw [he] at hlen
        exact absurd rfl hlen
  · intro x l' hd
    obtain ⟨h1, h2, h3, h4⟩ := pqDequeue_spec l hh x l' hd
    exact ⟨h4, h3, h2⟩

/-- Witness for C6 on the queue built by enqueuing priorities 1 then 10:
the dequeued item (priority 10) was in the queue and exactly one item
remains. -/
theorem C6_witness :
    ((2 : Nat), (10 : Int)) ∈ pqEnqueue (pqEnqueue [] ((1 : Nat), (1 : Int))) (2, 10) ∧
    [((1 : Nat), (1 : Int))].length + 1
      = (pqEnqueue (pqEnqueue [] ((1 : Nat), (1 : Int))) (2, 10)).length := by
  have hr : PQReachable (pqEnqueue (pqEnqueue [] ((1 : Nat), (1 : Int))) (2, 10)) :=
    PQReachable.enq (PQReachable.enq PQReachable.empty)
  have hd : pqDequeue (pqEnqueue (pqEnqueue [] ((1 : Nat), (1 : Int))) (2, 10))
      = some ((2, 10), [(1, 1)]) := by
    simp [pqEnqueue, pqDequeue, siftUp, siftDown, swapQ, maxChildIdx, priAt, parentIdx]
  obtain ⟨hmax, hmem, hlen⟩ := (C6_dequeue_max _ hr).2 (2, 10) [(1, 1)] hd
  exact ⟨hmem, hlen⟩
